import Mathlib

/-!
Verification of the pagination / batch-fetch / credential-refresh core of the
YouTube Creator CLI (`scripts/yt.py`), shallowly embedded in Lean.

Conventions of the embedding:
* remote calls are modelled by passing the sequence of responses (or a
  response function) as an explicit argument;
* Python dictionaries are modelled as association lists with
  insert-or-replace semantics (`dictInsert`, `dget`);
* fallible remote calls are modelled with `Except String`;
* traces (number of refresh calls, cache writes, issued update bodies)
  are returned explicitly so that effect counts can be stated.
-/

/- ───────────────────────── Paginator (`_paginate`, yt.py lines 130-143) ── -/

/-- Python loop-continuation test of `_paginate`: the loop breaks when
`not next_page or (limit is not None and len(collected) >= limit)`; given that
a next page token exists, it keeps going iff `limit` is absent or the
collected count is still below it. -/
def keepGoing (limit : Option Nat) (n : Nat) : Bool :=
  match limit with
  | none => true
  | some l => decide (n < l)

/-- Python final expression of `_paginate`:
`collected[:limit] if limit else collected`.  Both `None` and `0` are falsy,
so truncation is skipped for `limit = none` and `limit = some 0`. -/
def pyTruncate (limit : Option Nat) (l : List α) : List α :=
  match limit with
  | none => l
  | some 0 => l
  | some k => l.take k

/-- Embedding of the fetch loop of `_paginate`.  The input list holds the
successive responses of `method(**params).execute()`: element `i` is the
response to the `i`-th call (its items, or the exception it raises), and a
`nextPageToken` is present in response `i` iff a further response follows.
Returns the number of calls issued together with the collected items (or the
first propagated error, which discards everything collected so far). -/
def paginateRun (limit : Option Nat) (acc : List α) :
    List (Except String (List α)) → Nat × Except String (List α)
  | [] => (1, Except.ok acc)
  | r :: rest =>
    match r with
    | Except.error e => (1, Except.error e)
    | Except.ok p =>
      let acc2 := acc ++ p
      if rest.isEmpty then (1, Except.ok acc2)
      else if keepGoing limit acc2.length then
        let pr := paginateRun limit acc2 rest
        (pr.1 + 1, pr.2)
      else (1, Except.ok acc2)

/-- Embedding of `_paginate`: run the fetch loop from an empty accumulator and
apply the trailing Python truncation `collected[:limit] if limit else
collected`. -/
def paginate (pages : List (Except String (List α))) (limit : Option Nat) :
    Except String (List α) :=
  (paginateRun limit [] pages).2.map (pyTruncate limit)

/-- Number of calls to the list operation issued by `_paginate`. -/
def paginateCalls (pages : List (Except String (List α))) (limit : Option Nat) : Nat :=
  (paginateRun limit [] pages).1

/- ──────────────── Dictionary model (Python `dict` as association list) ── -/

/-- Lookup in a Python-style dictionary modelled as an association list. -/
def dget {α} : List (String × α) → String → Option α
  | [], _ => none
  | (k, v) :: rest, key => if k = key then some v else dget rest key

/-- Assignment `d[key] = v` on a Python dictionary: replace the value in
place when the key exists (keeping its position), otherwise append. -/
def dictInsert {α} : List (String × α) → String → α → List (String × α)
  | [], key, v => [(key, v)]
  | (k, w) :: rest, key, v =>
    if k = key then (key, v) :: rest else (k, w) :: dictInsert rest key v

/- ───── Batch detail fetcher (`_fetch_video_details`, yt.py lines 146-154) ── -/

/-- Chunking performed by `for i in range(0, len(video_ids), 50):
batch = video_ids[i : i + 50]`: consecutive chunks of at most 50, in order. -/
def chunks50 {α} : List α → List (List α)
  | [] => []
  | x :: xs => ((x :: xs).take 50) :: chunks50 ((x :: xs).drop 50)
termination_by l => l.length
decreasing_by simp; omega

/-- Fold one response into the accumulating `details` dictionary:
`for item in resp.get("items", []): details[item["id"]] = item`.  Response
items are modelled as pairs of identifier and detail record. -/
def applyItems {α} (d : List (String × α)) (items : List (String × α)) :
    List (String × α) :=
  items.foldl (fun acc p => dictInsert acc p.1 p.2) d

/-- Loop of `_fetch_video_details` over the chunks, recording each issued
batch call.  Returns the merged dictionary and the list of issued calls. -/
def fetchLoop {α} (server : List String → List (String × α)) :
    List (List String) → List (String × α) → List (String × α) × List (List String)
  | [], d => (d, [])
  | b :: bs, d =>
    let pr := fetchLoop server bs (applyItems d (server b))
    (pr.1, b :: pr.2)

/-- Embedding of `_fetch_video_details`: chunk the identifiers by 50 and issue
one `videos().list` call per chunk, merging all responses into one mapping
keyed by identifier. -/
def fetch_video_details {α} (server : List String → List (String × α))
    (ids : List String) : List (String × α) × List (List String) :=
  fetchLoop server (chunks50 ids) []

/-- Model of the remote system behind the detail-list endpoint: a ground-truth
database assigning to each identifier its detail record, if the entity exists.
A call with a batch of identifiers returns one item per existing identifier of
the batch. -/
def dbServer {α} (db : String → Option α) : List String → List (String × α) :=
  fun batch => batch.filterMap (fun i => (db i).map (fun v => (i, v)))

/- ───────────── Credential store (`get_service`, yt.py lines 64-108) ── -/

/-- Cached OAuth2 credential as loaded from the credential file. -/
structure Cred where
  token : Option String
  refresh_token : Option String
  expiry : Option Int
deriving DecidableEq, Repr

/-- Expiry test of the google credential object: expired iff an expiry is
recorded and it is not in the future. -/
def Cred.expired (c : Cred) (now : Int) : Bool :=
  match c.expiry with
  | none => false
  | some e => decide (e ≤ now)

/-- Validity test of the google credential object: a token is present and it
is not expired. -/
def Cred.valid (c : Cred) (now : Int) : Bool :=
  c.token.isSome && !(c.expired now)

/-- Python truthiness of `creds.refresh_token`: present and non-empty. -/
def Cred.hasRefreshToken (c : Cred) : Bool :=
  match c.refresh_token with
  | none => false
  | some r => !r.isEmpty

/-- Side-effect counts observed during one `get_service()` call. -/
structure AuthTrace where
  refreshCalls : Nat
  flowRuns : Nat
  cacheWrites : Nat
deriving DecidableEq, Repr

/-- Embedding of `get_service` (yt.py lines 76-108).  The cached credential
file content, the existence of the client-secrets file, the clock, and the
outcomes of the two external collaborators (token refresh against the
authorization server, interactive consent flow) are explicit inputs.  The
result pairs the observed side-effect counts with the outcome: the
authenticated credential, or the raised error. -/
def get_service (cached : Option Cred) (secretsExist : Bool) (now : Int)
    (refreshResult : Except String Cred) (flowResult : Except String Cred) :
    AuthTrace × Except String Cred :=
  match cached with
  | none =>
    if !secretsExist then (⟨0, 0, 0⟩, Except.error "AuthConfigurationError")
    else
      match flowResult with
      | Except.ok c2 => (⟨0, 1, 1⟩, Except.ok c2)
      | Except.error e => (⟨0, 1, 0⟩, Except.error e)
  | some c =>
    if c.valid now then (⟨0, 0, 0⟩, Except.ok c)
    else if c.expired now && c.hasRefreshToken then
      match refreshResult with
      | Except.ok c2 => (⟨1, 0, 1⟩, Except.ok c2)
      | Except.error e => (⟨1, 0, 0⟩, Except.error e)
    else if !secretsExist then (⟨0, 0, 0⟩, Except.error "AuthConfigurationError")
    else
      match flowResult with
      | Except.ok c2 => (⟨0, 1, 1⟩, Except.ok c2)
      | Except.error e => (⟨0, 1, 0⟩, Except.error e)

/- ───────────── Video update handler (`cmd_videos_update`, lines 351-394) ── -/

/-- Field value inside a snippet/status sub-object: a string or a tag list. -/
inductive FVal where
  | s : String → FVal
  | l : List String → FVal
deriving DecidableEq, Repr

/-- Command-line flags of `videos update`; `none` means the flag is absent. -/
structure UpdateArgs where
  title : Option String
  description : Option String
  tags : Option String
  category : Option String
  privacy : Option String
  publish_at : Option String
deriving DecidableEq, Repr

/-- ASCII whitespace stripped by Python `str.strip()`. -/
def isPyWs (c : Char) : Bool :=
  c = ' ' || c = '\t' || c = '\n' || c = '\r' ||
    c = Char.ofNat 11 || c = Char.ofNat 12

/-- Python `s.strip()`: remove leading and trailing whitespace. -/
def pyStrip (s : String) : String :=
  String.mk (((s.data.dropWhile isPyWs).reverse.dropWhile isPyWs).reverse)

/-- Python `[t.strip() for t in s.split(sep) if t.strip()]`. -/
def pySplitTrim (sep : String) (s : String) : List String :=
  ((s.splitOn sep).map (fun t => pyStrip t)).filter (fun t => !t.isEmpty)

/-- Error cases of the update handler, both terminating via `sys.exit(1)`. -/
inductive UpdErr where
  | notFound
  | noOp
deriving DecidableEq, Repr

/-- Exit status produced for each update-handler error (`sys.exit(1)`). -/
def updErrExitCode : UpdErr → Nat := fun _ => 1

/-- Observable outcome of `cmd_videos_update`: the issued
`videos().update` call bodies (id, snippet, status) and the error, if any. -/
structure UpdTrace where
  updates : List (String × List (String × FVal) × List (String × FVal))
  err : Option UpdErr
deriving DecidableEq, Repr

/-- Embedding of `cmd_videos_update`.  `items` is the `items` array of the
initial `videos().list` response; each item carries its snippet and status
dictionaries.  The handler overlays exactly the supplied flags onto the
fetched snippet/status and issues one update with the merged record, or fails
without issuing any write. -/
def cmd_videos_update (args : UpdateArgs) (videoId : String)
    (items : List (List (String × FVal) × List (String × FVal))) : UpdTrace :=
  match items with
  | [] => { updates := [], err := some UpdErr.notFound }
  | (snippet0, status0) :: _ =>
    let s1 := match args.title with
      | some t => dictInsert snippet0 "title" (FVal.s t)
      | none => snippet0
    let s2 := match args.description with
      | some d => dictInsert s1 "description" (FVal.s d)
      | none => s1
    let s3 := match args.tags with
      | some ts => dictInsert s2 "tags" (FVal.l (pySplitTrim "," ts))
      | none => s2
    let s4 := match args.category with
      | some cat => dictInsert s3 "categoryId" (FVal.s cat)
      | none => s3
    let t1 := match args.privacy with
      | some p => dictInsert status0 "privacyStatus" (FVal.s p)
      | none => status0
    let t2 := match args.publish_at with
      | some pa =>
        dictInsert (dictInsert t1 "publishAt" (FVal.s pa)) "privacyStatus"
          (FVal.s "private")
      | none => t1
    let changed := args.title.isSome || args.description.isSome ||
      args.tags.isSome || args.category.isSome || args.privacy.isSome ||
      args.publish_at.isSome
    if changed then { updates := [(videoId, s4, t2)], err := none }
    else { updates := [], err := some UpdErr.noOp }

/- ───────────── Bulk update row handling (`cmd_bulk_update`, lines 684-719) ── -/

/-- Python `row.get(k, "")` on a CSV row (a dictionary from column name to
cell content). -/
def rowGet (row : List (String × String)) (k : String) : String :=
  (dget row k).getD ""

/-- Python `k in row`: the column is present in the CSV. -/
def rowHas (row : List (String × String)) (k : String) : Bool :=
  (dget row k).isSome

/-- Embedding of the per-row field overlay of `cmd_bulk_update` (yt.py lines
696-710): a non-blank `title`/`tags`/`category_id`/`status` cell overwrites
the corresponding fetched field, a blank one leaves it unchanged, while the
mere presence of the `description` column overwrites the description with the
raw cell content.  Returns the outgoing snippet and status together with the
`changed` flag. -/
def bulkApplyRow (row : List (String × String))
    (snippet status : List (String × FVal)) :
    List (String × FVal) × List (String × FVal) × Bool :=
  let tCell := pyStrip (rowGet row "title")
  let s1 := if tCell.isEmpty then snippet
    else dictInsert snippet "title" (FVal.s tCell)
  let s2 := if rowHas row "description" then
      dictInsert s1 "description" (FVal.s (rowGet row "description"))
    else s1
  let tagsCell := pyStrip (rowGet row "tags")
  let s3 := if tagsCell.isEmpty then s2
    else dictInsert s2 "tags" (FVal.l (pySplitTrim "|" (rowGet row "tags")))
  let cCell := pyStrip (rowGet row "category_id")
  let s4 := if cCell.isEmpty then s3
    else dictInsert s3 "categoryId" (FVal.s cCell)
  let stCell := pyStrip (rowGet row "status")
  let t1 := if stCell.isEmpty then status
    else dictInsert status "privacyStatus" (FVal.s stCell)
  let changed := !tCell.isEmpty || rowHas row "description" ||
    !tagsCell.isEmpty || !cCell.isEmpty || !stCell.isEmpty
  (s4, t1, changed)

/- ───────────── JSON renderer (`print(json.dumps(rows, indent=2))`) ── -/

/-- Double-quote character, written via its code point. -/
def dquote : Char := Char.ofNat 34

/-- Backslash character, written via its code point. -/
def bslash : Char := Char.ofNat 92

/-- Opening curly brace character, written via its code point. -/
def lcurl : Char := Char.ofNat 123

/-- Closing curly brace character, written via its code point. -/
def rcurl : Char := Char.ofNat 125

/-- Lowercase hexadecimal digit for a value below 16. -/
def hexChar (n : Nat) : Char :=
  if n < 10 then Char.ofNat (48 + n) else Char.ofNat (87 + n)

/-- JSON string escaping of one character, as performed by `json.dumps`:
quote, backslash and the named control characters get two-character escapes,
the remaining control characters get a `\u00xx` escape, and every other
character is emitted literally.  (The `ensure_ascii` escaping of non-ASCII
characters is omitted: it only changes the concrete bytes, not the decoded
value.) -/
def escChar (c : Char) : List Char :=
  if c = dquote then [bslash, dquote]
  else if c = bslash then [bslash, bslash]
  else if c = '\n' then [bslash, 'n']
  else if c = '\t' then [bslash, 't']
  else if c = '\r' then [bslash, 'r']
  else if c.toNat = 8 then [bslash, 'b']
  else if c.toNat = 12 then [bslash, 'f']
  else if c.toNat < 32 then
    [bslash, 'u', '0', '0', hexChar (c.toNat / 16), hexChar (c.toNat % 16)]
  else [c]

/-- Serialized JSON string literal with surrounding quotes. -/
def encodeString (s : String) : List Char :=
  dquote :: (s.data.flatMap escChar ++ [dquote])

/-- Decimal digit character. -/
def digitChar (d : Nat) : Char := Char.ofNat (48 + d)

/-- Decimal representation of a natural number, as `repr` prints it. -/
def natChars (n : Nat) : List Char :=
  if n = 0 then ['0'] else ((Nat.digits 10 n).reverse).map digitChar

/-- Decimal representation of an integer, as `json.dumps` prints it. -/
def encodeInt (n : Int) : List Char :=
  if n < 0 then '-' :: natChars n.natAbs else natChars n.toNat

/-- JSON scalar value of a row record: a string or an integer, the two value
shapes occurring in the rows built by the command handlers. -/
inductive JVal where
  | str : String → JVal
  | num : Int → JVal
deriving DecidableEq, Repr

/-- Row record: an ordered mapping from field name to scalar value. -/
abbrev Row := List (String × JVal)

/-- Serialize one scalar. -/
def encodeJVal : JVal → List Char
  | JVal.str s => encodeString s
  | JVal.num n => encodeInt n

/-- Two-space indentation prefix at nesting depth `d` (`indent=2`). -/
def ind (d : Nat) : List Char := List.replicate (2 * d) ' '

/-- Serialize one `"key": value` member. -/
def encodePair (p : String × JVal) : List Char :=
  encodeString p.1 ++ ':' :: ' ' :: encodeJVal p.2

/-- Serialize the members after the first one, each preceded by a comma,
a newline and the indentation of depth `d`. -/
def encodePairsTail (d : Nat) : Row → List Char
  | [] => []
  | p :: ps => ',' :: '\n' :: (ind d ++ encodePair p ++ encodePairsTail d ps)

/-- Serialize one row as a JSON object at nesting depth `d`, with the
member-per-line layout produced by `json.dumps(..., indent=2)`. -/
def encodeObj (d : Nat) (r : Row) : List Char :=
  match r with
  | [] => [lcurl, rcurl]
  | p :: ps =>
    lcurl :: '\n' :: (ind (d + 1) ++ encodePair p ++ encodePairsTail (d + 1) ps
      ++ '\n' :: (ind d ++ [rcurl]))

/-- Serialize the rows after the first one. -/
def encodeRowsTail : List Row → List Char
  | [] => []
  | r :: rs => ',' :: '\n' :: (ind 1 ++ encodeObj 1 r ++ encodeRowsTail rs)

/-- Serialize the row list as a JSON array, with the layout produced by
`json.dumps(rows, indent=2)` at top level. -/
def encodeRows (rows : List Row) : List Char :=
  match rows with
  | [] => ['[', ']']
  | r :: rs =>
    '[' :: '\n' :: (ind 1 ++ encodeObj 1 r ++ encodeRowsTail rs ++ ['\n', ']'])

/-- Embedding of the JSON renderer `json.dumps(rows, indent=2)`. -/
def dumps (rows : List Row) : String := String.mk (encodeRows rows)

/- ───────────── JSON parser (model of `json.loads` on the row grammar) ── -/

/-- JSON whitespace. -/
def isWs (c : Char) : Bool := c = ' ' || c = '\n' || c = '\t' || c = '\r'

/-- Skip leading whitespace. -/
def skipWs : List Char → List Char
  | [] => []
  | c :: cs => if isWs c then skipWs cs else c :: cs

/-- Value of one hexadecimal digit character. -/
def hexVal (c : Char) : Option Nat :=
  let n := c.toNat
  if 48 ≤ n ∧ n ≤ 57 then some (n - 48)
  else if 97 ≤ n ∧ n ≤ 102 then some (n - 87)
  else if 65 ≤ n ∧ n ≤ 70 then some (n - 55)
  else none

/-- Parse the body of a JSON string literal after the opening quote, up to
and including the closing quote; returns the decoded characters and the rest
of the input.  Escape sequences are decoded; unescaped control characters are
rejected, as `json.loads` does in strict mode.  A `\u` escape is accepted for
code points below the surrogate range (the only ones our serializer emits). -/
def parseStrBody : List Char → Option (List Char × List Char)
  | [] => none
  | c :: cs =>
    if c = dquote then some ([], cs)
    else if c = bslash then
      match cs with
      | [] => none
      | e :: cs2 =>
        if e = dquote then
          (parseStrBody cs2).map (fun pr => (dquote :: pr.1, pr.2))
        else if e = bslash then
          (parseStrBody cs2).map (fun pr => (bslash :: pr.1, pr.2))
        else if e = '/' then
          (parseStrBody cs2).map (fun pr => ('/' :: pr.1, pr.2))
        else if e = 'n' then
          (parseStrBody cs2).map (fun pr => ('\n' :: pr.1, pr.2))
        else if e = 't' then
          (parseStrBody cs2).map (fun pr => ('\t' :: pr.1, pr.2))
        else if e = 'r' then
          (parseStrBody cs2).map (fun pr => ('\r' :: pr.1, pr.2))
        else if e = 'b' then
          (parseStrBody cs2).map (fun pr => (Char.ofNat 8 :: pr.1, pr.2))
        else if e = 'f' then
          (parseStrBody cs2).map (fun pr => (Char.ofNat 12 :: pr.1, pr.2))
        else if e = 'u' then
          match cs2 with
          | h1 :: h2 :: h3 :: h4 :: cs3 =>
            match hexVal h1, hexVal h2, hexVal h3, hexVal h4 with
            | some a1, some a2, some a3, some a4 =>
              let n := ((a1 * 16 + a2) * 16 + a3) * 16 + a4
              if n < 55296 then
                (parseStrBody cs3).map (fun pr => (Char.ofNat n :: pr.1, pr.2))
              else none
            | _, _, _, _ => none
          | _ => none
        else none
    else if c.toNat < 32 then none
    else (parseStrBody cs).map (fun pr => (c :: pr.1, pr.2))

/-- Greedily read decimal digits, returning their values and the rest. -/
def parseDigits : List Char → List Nat × List Char
  | [] => ([], [])
  | c :: cs =>
    if 48 ≤ c.toNat ∧ c.toNat ≤ 57 then
      let pr := parseDigits cs
      ((c.toNat - 48) :: pr.1, pr.2)
    else ([], c :: cs)

/-- Decimal value of a digit sequence read most-significant first. -/
def digitsVal (ds : List Nat) : Nat := ds.foldl (fun a d => a * 10 + d) 0

/-- Parse a JSON integer (optional minus sign, one or more digits). -/
def parseNum (l : List Char) : Option (Int × List Char) :=
  match l with
  | [] => none
  | c :: cs =>
    if c = '-' then
      match parseDigits cs with
      | ([], _) => none
      | (ds, rest) => some (-(digitsVal ds : Int), rest)
    else
      match parseDigits (c :: cs) with
      | ([], _) => none
      | (ds, rest) => some ((digitsVal ds : Int), rest)

/-- Parse a scalar: a string literal or an integer. -/
def parseJVal (l : List Char) : Option (JVal × List Char) :=
  match l with
  | [] => none
  | c :: cs =>
    if c = dquote then
      (parseStrBody cs).map (fun pr => (JVal.str (String.mk pr.1), pr.2))
    else (parseNum (c :: cs)).map (fun pr => (JVal.num pr.1, pr.2))

/-- Parse the members of an object, starting at the first character of a key,
accumulating them with Python-dictionary insertion as `json.loads` does.  The
fuel bounds the number of members and only needs to exceed their count. -/
def parsePairsGo : Nat → Row → List Char → Option (Row × List Char)
  | 0, _, _ => none
  | fuel + 1, acc, l =>
    match l with
    | [] => none
    | c :: cs =>
      if c = dquote then
        match parseStrBody cs with
        | none => none
        | some (kcs, r1) =>
          match skipWs r1 with
          | [] => none
          | c2 :: r3 =>
            if c2 = ':' then
              match parseJVal (skipWs r3) with
              | none => none
              | some (v, r4) =>
                let acc2 := dictInsert acc (String.mk kcs) v
                match skipWs r4 with
                | [] => none
                | c3 :: r6 =>
                  if c3 = ',' then parsePairsGo fuel acc2 (skipWs r6)
                  else if c3 = rcurl then some (acc2, r6)
                  else none
            else none
      else none

/-- Parse one JSON object into a row. -/
def parseObj (fuel : Nat) (l : List Char) : Option (Row × List Char) :=
  match l with
  | [] => none
  | c :: cs =>
    if c = lcurl then
      match skipWs cs with
      | [] => none
      | c2 :: r =>
        if c2 = rcurl then some ([], r)
        else parsePairsGo fuel [] (c2 :: r)
    else none

/-- Parse the elements of the top-level array, starting at the first
character of an object. -/
def parseRowsGo : Nat → List Row → List Char → Option (List Row × List Char)
  | 0, _, _ => none
  | fuel + 1, acc, l =>
    match parseObj (fuel + 1) l with
    | none => none
    | some (row, r1) =>
      match skipWs r1 with
      | [] => none
      | c :: r2 =>
        if c = ',' then parseRowsGo fuel (acc ++ [row]) (skipWs r2)
        else if c = ']' then some (acc ++ [row], r2)
        else none

/-- Parse the top-level JSON array of objects. -/
def parseRows (fuel : Nat) (l : List Char) : Option (List Row × List Char) :=
  match l with
  | [] => none
  | c :: cs =>
    if c = '[' then
      match skipWs cs with
      | [] => none
      | c2 :: r =>
        if c2 = ']' then some ([], r)
        else parseRowsGo fuel [] (c2 :: r)
    else none

/-- Model of `json.loads` on the emitted row grammar: parse an array of
objects of scalars and require only trailing whitespace afterwards. -/
def loads (s : String) : Option (List Row) :=
  match parseRows (s.length + 1) (skipWs s.data) with
  | some (rows, rest) => if skipWs rest = [] then some rows else none
  | none => none

/-- Head-of-input digit test, used to state that greedy number parsing
stops at the given continuation. -/
def headDigit : List Char → Bool
  | [] => false
  | c :: _ => decide (48 ≤ c.toNat ∧ c.toNat ≤ 57)

/-- Fuel bound sufficient to parse the given rows: one unit per row plus one
per object member. -/
def rowsBound (rs : List Row) : Nat :=
  rs.foldr (fun r a => r.length + 1 + a) 1

/- ═══════════════════════════════ Theorems ═══════════════════════════════ -/

/- ───────────────────────── Paginator lemmas ── -/

theorem paginateRun_nil (limit : Option Nat) (acc : List α) :
    paginateRun limit acc [] = (1, Except.ok acc) := rfl

theorem paginateRun_err (limit : Option Nat) (acc : List α) (e : String)
    (rest : List (Except String (List α))) :
    paginateRun limit acc (Except.error e :: rest) = (1, Except.error e) := rfl

theorem paginateRun_single (limit : Option Nat) (acc p : List α) :
    paginateRun limit acc [Except.ok p] = (1, Except.ok (acc ++ p)) := rfl

theorem paginateRun_cons_cons (limit : Option Nat) (acc p : List α)
    (r2 : Except String (List α)) (rest : List (Except String (List α))) :
    paginateRun limit acc (Except.ok p :: r2 :: rest)
      = if keepGoing limit (acc ++ p).length then
          ((paginateRun limit (acc ++ p) (r2 :: rest)).1 + 1,
            (paginateRun limit (acc ++ p) (r2 :: rest)).2)
        else (1, Except.ok (acc ++ p)) := rfl

theorem paginateRun_none_ok (pages : List (List α)) :
    ∀ acc : List α,
      (paginateRun none acc (pages.map Except.ok)).2
        = Except.ok (acc ++ pages.flatten) := by
  induction pages with
  | nil => intro acc; simp [paginateRun_nil]
  | cons p ps ih =>
    intro acc
    cases ps with
    | nil => simp [paginateRun_single]
    | cons q qs =>
      simp only [List.map_cons, paginateRun_cons_cons, keepGoing, if_true]
      simpa [List.append_assoc] using ih (acc ++ p)

theorem paginateRun_some_ok (k : Nat) (pages : List (List α)) :
    ∀ acc : List α, pages ≠ [] →
      ∃ m, 1 ≤ m ∧ m ≤ pages.length ∧
        paginateRun (some k) acc (pages.map Except.ok)
          = (m, Except.ok (acc ++ (pages.take m).flatten)) ∧
        (k ≤ (acc ++ (pages.take m).flatten).length ∨ m = pages.length) := by
  induction pages with
  | nil => intro acc h; exact absurd rfl h
  | cons p ps ih =>
    intro acc _
    cases ps with
    | nil =>
      refine ⟨1, le_refl 1, by simp, ?_, Or.inr rfl⟩
      simp [paginateRun_single]
    | cons q qs =>
      by_cases hk : (acc ++ p).length < k
      · obtain ⟨m, h1, h2, h3, h4⟩ := ih (acc ++ p) (by simp)
        refine ⟨m + 1, by omega, ?_, ?_, ?_⟩
        · simp only [List.length_cons] at h2 ⊢; omega
        · simp only [List.map_cons, paginateRun_cons_cons, keepGoing]
          rw [if_pos (by simpa using hk)]
          rw [List.map_cons] at h3
          rw [h3]
          simp [List.append_assoc]
        · rcases h4 with h4 | h4
          · refine Or.inl ?_
            simp only [List.take_succ_cons, List.flatten_cons, List.length_append,
              List.length_cons] at h4 ⊢
            omega
          · refine Or.inr ?_
            simp only [List.length_cons] at h4 ⊢
            omega
      · refine ⟨1, le_refl 1, by simp, ?_, Or.inl ?_⟩
        · simp only [List.map_cons, paginateRun_cons_cons, keepGoing]
          rw [if_neg (by simpa using hk)]
          simp
        · have ht : (p :: q :: qs).take 1 = [p] := rfl
          rw [ht]
          simp only [List.length_append, List.flatten_cons, List.flatten_nil,
            List.append_nil] at hk ⊢
          omega

theorem pyTruncate_pos (k : Nat) (hk : 1 ≤ k) (l : List α) :
    pyTruncate (some k) l = l.take k := by
  match k, hk with
  | k + 1, _ => rfl

theorem paginateRun_cons_ne (limit : Option Nat) (acc p : List α)
    (l : List (Except String (List α))) (hl : l ≠ []) :
    paginateRun limit acc (Except.ok p :: l)
      = if keepGoing limit (acc ++ p).length then
          ((paginateRun limit (acc ++ p) l).1 + 1,
            (paginateRun limit (acc ++ p) l).2)
        else (1, Except.ok (acc ++ p)) := by
  cases l with
  | nil => exact absurd rfl hl
  | cons a as => rfl

theorem paginateRun_error_reaches (e : String)
    (tail : List (Except String (List α))) (gs : List (List α)) :
    ∀ (acc : List α) (limit : Option Nat),
      (limit = none ∨ ∃ k, limit = some k ∧ acc.length + gs.flatten.length < k) →
      paginateRun limit acc (gs.map Except.ok ++ Except.error e :: tail)
        = (gs.length + 1, Except.error e) := by
  induction gs with
  | nil => intro acc limit _; simp [paginateRun_err]
  | cons p ps ih =>
    intro acc limit hcond
    simp only [List.map_cons, List.cons_append]
    rw [paginateRun_cons_ne _ _ _ _ (by simp)]
    have hkg : keepGoing limit (acc ++ p).length = true := by
      rcases hcond with h | ⟨k, hk, hlt⟩
      · subst h; rfl
      · subst hk
        simp only [keepGoing, decide_eq_true_eq, List.length_append]
        simp only [List.flatten_cons, List.length_append] at hlt
        omega
    rw [if_pos hkg]
    have hcond2 : limit = none ∨
        ∃ k, limit = some k ∧ (acc ++ p).length + ps.flatten.length < k := by
      rcases hcond with h | ⟨k, hk, hlt⟩
      · exact Or.inl h
      · refine Or.inr ⟨k, hk, ?_⟩
        simp only [List.flatten_cons, List.length_append] at hlt ⊢
        omega
    rw [ih (acc ++ p) limit hcond2]
    simp

/- ───────────────────────── Claim C1 ── -/

/-- C1 (amended: the supplied limit `k` is positive).  For a mock list
operation returning the given pages, `_paginate` with `limit = None` returns
all items concatenated in page-then-within-page order; with a supplied limit
`1 ≤ k < S` it returns exactly `k` items forming a prefix of the unlimited
result, and the pre-truncation collection is always the concatenation of the
whole fetched pages (truncation happens only after the last fetched page,
never mid-page). -/
theorem paginate_limit_spec (pages : List (List Nat)) (k : Nat)
    (hk : 1 ≤ k) (hlt : k < pages.flatten.length) :
    paginate (pages.map Except.ok) none = Except.ok pages.flatten ∧
    paginate (pages.map Except.ok) (some k) = Except.ok (pages.flatten.take k) ∧
    (pages.flatten.take k).length = k ∧
    (paginateRun (some k) ([] : List Nat) (pages.map Except.ok)).2
      = Except.ok
          ((pages.take
            (paginateRun (some k) ([] : List Nat) (pages.map Except.ok)).1).flatten) := by
  have hne : pages ≠ [] := by
    intro h; subst h; simp at hlt
  obtain ⟨m, hm1, hm2, heq, hdisj⟩ := paginateRun_some_ok k pages [] hne
  refine ⟨?_, ?_, ?_, ?_⟩
  · unfold paginate
    rw [paginateRun_none_ok]
    simp [pyTruncate, Except.map]
  · unfold paginate
    rw [heq]
    simp only [Except.map, List.nil_append]
    rw [pyTruncate_pos k hk]
    have hx : (pages.take m).flatten.take k = pages.flatten.take k := by
      rcases hdisj with hlen | hm
      · have hlen2 : k ≤ (pages.take m).flatten.length := by simpa using hlen
        have hsplit : pages.flatten
            = (pages.take m).flatten ++ (pages.drop m).flatten := by
          rw [← List.flatten_append, List.take_append_drop]
        rw [hsplit, List.take_append_eq_append_take,
          Nat.sub_eq_zero_of_le hlen2, List.take_zero, List.append_nil]
      · rw [hm, List.take_length]
    rw [hx]
  · simp only [List.length_take]
    omega
  · rw [heq]
    simp

/-- C1 counterexample to the claim as frozen: with pages `[[7]]` the total
size is `S = 1 > 0`, so `k = 0` is a supplied limit below `S`, yet
`_paginate` returns the whole first page (one item) rather than `k = 0`
items, because `collected[:limit] if limit else collected` treats `0` as
falsy. -/
theorem paginate_limit_spec_counterexample :
    (0 : Nat) < ([[7]] : List (List Nat)).flatten.length ∧
    paginate [Except.ok ([7] : List Nat)] (some 0) = Except.ok [7] ∧
    ¬ ∃ items : List Nat,
        paginate [Except.ok ([7] : List Nat)] (some 0) = Except.ok items ∧
        items.length = 0 := by
  refine ⟨by decide, rfl, ?_⟩
  rintro ⟨items, he, hl⟩
  have h2 : (Except.ok ([7] : List Nat) : Except String (List Nat))
      = Except.ok items := he
  have h3 := Except.ok.inj h2
  rw [← h3] at hl
  simp at hl

/-- C1 witness: three pages of one item each, limit 2. -/
theorem paginate_limit_spec_witness :
    paginate ([[1], [2], [3]].map Except.ok) (some 2) = Except.ok [1, 2] :=
  ((paginate_limit_spec [[1], [2], [3]] 2 (by decide) (by decide)).2.1).trans rfl

/- ───────────────────────── Claim C10 ── -/

/-- C10: with a supplied `limit = 0`, `_paginate` fetches the first page and
returns all of its items rather than zero items: the stop check halts the
loop after one call, but `collected[:limit] if limit else collected` treats
`0` as falsy and skips truncation. -/
theorem paginate_limit_zero_first_page (p : List Nat) (rest : List (List Nat)) :
    paginate ((p :: rest).map Except.ok) (some 0) = Except.ok p ∧
    paginateCalls ((p :: rest).map Except.ok) (some 0) = 1 := by
  cases rest with
  | nil =>
    constructor
    · simp [paginate, paginateRun_single, pyTruncate, Except.map]
    · simp [paginateCalls, paginateRun_single]
  | cons q qs =>
    constructor
    · simp only [List.map_cons, paginate, paginateRun_cons_cons, keepGoing]
      rw [if_neg (by simp)]
      simp [pyTruncate, Except.map]
    · simp only [List.map_cons, paginateCalls, paginateRun_cons_cons, keepGoing]
      rw [if_neg (by simp)]

/- ───────────────────────── Claim C8 ── -/

/-- C8: when some fetched page raises, `_paginate` propagates that error:
the caller gets the error (items collected from earlier successful pages are
discarded, no partial result is observable), and the failing call is the
last one issued, attempted exactly once with no retry.  The side condition
states that the loop reaches the failing call (always true for an unbounded
run; for a supplied limit, true when the earlier pages do not already reach
it). -/
theorem paginate_error_all_or_nothing (gs : List (List Nat)) (e : String)
    (tail : List (Except String (List Nat))) (limit : Option Nat)
    (hreach : limit = none ∨ ∃ k, limit = some k ∧ gs.flatten.length < k) :
    paginate (gs.map Except.ok ++ Except.error e :: tail) limit
      = Except.error e ∧
    paginateCalls (gs.map Except.ok ++ Except.error e :: tail) limit
      = gs.length + 1 := by
  have h := paginateRun_error_reaches e tail gs [] limit (by simpa using hreach)
  constructor
  · unfold paginate
    rw [h]
    rfl
  · unfold paginateCalls
    rw [h]

/-- C8 witness: one successful page followed by a failing call. -/
theorem paginate_error_all_or_nothing_witness :
    paginate [Except.ok ([1] : List Nat), Except.error "boom"] none
      = Except.error "boom" ∧
    paginateCalls [Except.ok ([1] : List Nat), Except.error "boom"] none = 2 := by
  have h := paginate_error_all_or_nothing [[1]] "boom" [] none (Or.inl rfl)
  simpa using h

/- ───────────────────────── Dictionary lemmas ── -/

theorem dget_dictInsert (m : List (String × α)) (k key : String) (v : α) :
    dget (dictInsert m k v) key = if k = key then some v else dget m key := by
  induction m with
  | nil => by_cases h : k = key <;> simp [dictInsert, dget, h]
  | cons p rest ih =>
    obtain ⟨k1, v1⟩ := p
    by_cases h1 : k1 = k
    · subst h1
      by_cases h2 : k1 = key <;> simp [dictInsert, dget, h2]
    · by_cases h2 : k1 = key
      · subst h2
        simp [dictInsert, dget, h1, Ne.symm h1]
      · simp [dictInsert, dget, h1, h2, ih]

/- ───────────────────────── Chunking lemmas ── -/

theorem chunks50_nil : chunks50 ([] : List α) = [] := by rw [chunks50]

theorem chunks50_cons (x : α) (xs : List α) :
    chunks50 (x :: xs) = ((x :: xs).take 50) :: chunks50 ((x :: xs).drop 50) := by
  rw [chunks50]

theorem chunks50_expand (l : List α) (h : l ≠ []) :
    chunks50 l = l.take 50 :: chunks50 (l.drop 50) := by
  cases l with
  | nil => exact absurd rfl h
  | cons x xs => exact chunks50_cons x xs

theorem chunks50_flatten (l : List α) : (chunks50 l).flatten = l := by
  induction l using chunks50.induct with
  | case1 => rw [chunks50_nil]; rfl
  | case2 x xs ih =>
    rw [chunks50_cons]
    simp only [List.flatten_cons, ih, List.take_append_drop]

theorem chunks50_size_le (l : List α) :
    ∀ c, c ∈ chunks50 l → c.length ≤ 50 := by
  induction l using chunks50.induct with
  | case1 => intro c hc; rw [chunks50_nil] at hc; simp at hc
  | case2 x xs ih =>
    intro c hc
    rw [chunks50_cons] at hc
    rcases List.mem_cons.mp hc with h | h
    · subst h; simp [List.length_take]
    · exact ih c h

theorem chunks50_length120 (l : List α) (h : l.length = 120) :
    (chunks50 l).map List.length = [50, 50, 20] := by
  have h1 : l ≠ [] := by intro hh; subst hh; simp at h
  rw [chunks50_expand l h1]
  have hd1 : (l.drop 50).length = 70 := by simp [h]
  have h2 : l.drop 50 ≠ [] := by
    intro hh; rw [hh] at hd1; simp at hd1
  rw [chunks50_expand _ h2]
  have hd2 : ((l.drop 50).drop 50).length = 20 := by simp [h]
  have h3 : (l.drop 50).drop 50 ≠ [] := by
    intro hh; rw [hh] at hd2; simp at hd2
  rw [chunks50_expand _ h3]
  have hd3 : ((l.drop 50).drop 50).drop 50 = [] := by
    have hlen : (((l.drop 50).drop 50).drop 50).length = 0 := by simp [h]
    exact List.eq_nil_of_length_eq_zero hlen
  rw [hd3, chunks50_nil]
  simp [List.length_take, h, hd1, hd2]

/- ───────────────────────── Batch fetcher lemmas ── -/

theorem fetchLoop_calls (server : List String → List (String × α))
    (bs : List (List String)) :
    ∀ d, (fetchLoop server bs d).2 = bs := by
  induction bs with
  | nil => intro d; rfl
  | cons b bs2 ih => intro d; simp [fetchLoop, ih]

theorem dget_applyItems_db (db : String → Option α) (c : List String) :
    ∀ (d : List (String × α)) (i : String),
      dget (applyItems d (dbServer db c)) i
        = if i ∈ c ∧ (db i).isSome then db i else dget d i := by
  induction c with
  | nil => intro d i; simp [applyItems, dbServer]
  | cons x xs ih =>
    intro d i
    cases hdb : db x with
    | none =>
      have hsv : dbServer db (x :: xs) = dbServer db xs := by
        simp [dbServer, List.filterMap_cons, hdb]
      rw [hsv, ih]
      split_ifs with hA hB hB
      · rfl
      · exact absurd ⟨List.mem_cons_of_mem x hA.1, hA.2⟩ hB
      · rcases List.mem_cons.mp hB.1 with hx | hx
        · subst hx; rw [hdb] at hB; simp at hB
        · exact absurd ⟨hx, hB.2⟩ hA
      · rfl
    | some v =>
      have hsv : dbServer db (x :: xs) = (x, v) :: dbServer db xs := by
        simp [dbServer, List.filterMap_cons, hdb]
      rw [hsv]
      have happ : applyItems d ((x, v) :: dbServer db xs)
          = applyItems (dictInsert d x v) (dbServer db xs) := rfl
      rw [happ, ih, dget_dictInsert]
      by_cases hx : x = i
      · subst hx
        rw [hdb]
        simp
      · have hxi : ¬ i = x := fun hh => hx hh.symm
        split_ifs with hA hB hB <;>
          simp_all [List.mem_cons]
    
theorem dget_fetchLoop_db (db : String → Option α) (bs : List (List String)) :
    ∀ (d : List (String × α)) (i : String),
      dget (fetchLoop (dbServer db) bs d).1 i
        = if i ∈ bs.flatten ∧ (db i).isSome then db i else dget d i := by
  induction bs with
  | nil => intro d i; simp [fetchLoop]
  | cons b bs2 ih =>
    intro d i
    have hstep : (fetchLoop (dbServer db) (b :: bs2) d).1
        = (fetchLoop (dbServer db) bs2 (applyItems d (dbServer db b))).1 := rfl
    rw [hstep, ih, dget_applyItems_db]
    simp only [List.flatten_cons, List.mem_append]
    split_ifs with hA hB hB hC <;> first | rfl | (exfalso; tauto)

/- ───────────────────────── Claim C2 ── -/

/-- C2: `_fetch_video_details` partitions the identifier list into
consecutive chunks of at most 50 in the given order (their concatenation is
the original list), issues exactly one detail-list call per chunk (the trace
of issued calls is exactly the chunk list, and 120 identifiers give exactly
3 calls of sizes 50, 50, 20), and returns the merge of all chunk responses
as a single mapping keyed by identifier. -/
theorem fetch_video_details_spec (db : String → Option Nat) (ids : List String) :
    (chunks50 ids).flatten = ids ∧
    (∀ c, c ∈ chunks50 ids → c.length ≤ 50) ∧
    (fetch_video_details (dbServer db) ids).2 = chunks50 ids ∧
    (ids.length = 120 →
      (chunks50 ids).map List.length = [50, 50, 20] ∧ (chunks50 ids).length = 3) ∧
    (∀ i, dget (fetch_video_details (dbServer db) ids).1 i
      = if i ∈ ids then db i else none) := by
  refine ⟨chunks50_flatten ids, chunks50_size_le ids, ?_, ?_, ?_⟩
  · exact fetchLoop_calls (dbServer db) (chunks50 ids) []
  · intro h120
    have hmap := chunks50_length120 ids h120
    refine ⟨hmap, ?_⟩
    have hlen := congrArg List.length hmap
    simpa using hlen
  · intro i
    unfold fetch_video_details
    rw [dget_fetchLoop_db, chunks50_flatten]
    cases hdb : db i with
    | none => split_ifs <;> simp [dget, hdb]
    | some v => split_ifs with hA hB <;> simp_all [dget]

/-- C2 witness: 120 identifiers are chunked into three calls of sizes
50, 50 and 20. -/
theorem fetch_video_details_spec_witness :
    (chunks50 (List.replicate 120 "v")).map List.length = [50, 50, 20] :=
  ((fetch_video_details_spec (fun _ => none)
    (List.replicate 120 "v")).2.2.2.1 (by simp)).1

/- ───────────────────────── Claim C7 ── -/

/-- C7: an identifier the remote system returns in no chunk response is
simply absent from the result mapping of `_fetch_video_details`; the fetcher
returns normally (it is a total function in the embedding) and the lookup of
that identifier gives `none` (not found) rather than an error. -/
theorem fetch_video_details_missing_id (db : String → Option Nat)
    (ids : List String) (i : String) (h : db i = none) :
    dget (fetch_video_details (dbServer db) ids).1 i = none := by
  unfold fetch_video_details
  rw [dget_fetchLoop_db]
  simp [h, dget]

/-- C7 witness: a database with no entities, two requested identifiers. -/
theorem fetch_video_details_missing_id_witness :
    dget (fetch_video_details (dbServer (fun _ => (none : Option Nat)))
      ["a", "b"]).1 "a" = none :=
  fetch_video_details_missing_id (fun _ => none) ["a", "b"] "a" rfl

/- ───────────────────────── Claim C3 ── -/

/-- C3: given a cached credential whose access token is past its expiry and
which carries a refresh token, `get_service` issues exactly one refresh call
against the authorization server and rewrites the on-disk credential cache
once; given a cached credential with a future expiry (and its access token
present, as every credential written by the tool has), it issues zero
network calls (no refresh, no consent flow) and leaves the cache file
unwritten. -/
theorem get_service_refresh_spec (c c2 : Cred) (e now : Int) (secrets : Bool)
    (rr fr : Except String Cred) :
    (c.expiry = some e → e ≤ now → c.hasRefreshToken = true →
      rr = Except.ok c2 →
      get_service (some c) secrets now rr fr
        = (⟨1, 0, 1⟩, Except.ok c2)) ∧
    (c.expiry = some e → now < e → c.token.isSome = true →
      get_service (some c) secrets now rr fr
        = (⟨0, 0, 0⟩, Except.ok c)) := by
  constructor
  · intro hexp hle hrt hrr
    have hexpd : c.expired now = true := by simp [Cred.expired, hexp, hle]
    have hval : c.valid now = false := by simp [Cred.valid, hexpd]
    subst hrr
    simp [get_service, hval, hexpd, hrt]
  · intro hexp hlt htok
    have hexpd : c.expired now = false := by
      simp only [Cred.expired, hexp, decide_eq_false_iff_not]
      omega
    have hval : c.valid now = true := by simp [Cred.valid, hexpd, htok]
    simp [get_service, hval]

/-- C3 witness: an expired credential refreshed at time 20, and the same
credential used as-is at time 5. -/
theorem get_service_refresh_spec_witness :
    get_service (some ⟨some "t", some "r", some 10⟩) false 20
        (Except.ok ⟨some "t2", some "r", some 100⟩) (Except.error "flow")
      = (⟨1, 0, 1⟩, Except.ok ⟨some "t2", some "r", some 100⟩) ∧
    get_service (some ⟨some "t", some "r", some 10⟩) false 5
        (Except.ok ⟨some "t2", some "r", some 100⟩) (Except.error "flow")
      = (⟨0, 0, 0⟩, Except.ok ⟨some "t", some "r", some 10⟩) := by
  constructor
  · exact (get_service_refresh_spec ⟨some "t", some "r", some 10⟩
      ⟨some "t2", some "r", some 100⟩ 10 20 false _ _).1 rfl (by decide)
      (by decide) rfl
  · exact (get_service_refresh_spec ⟨some "t", some "r", some 10⟩
      ⟨some "t2", some "r", some 100⟩ 10 5 false _ _).2 rfl (by decide)
      (by decide)

/- ───────────────────────── Claim C4 ── -/

/-- C4: when no field flag is supplied to `videos update`, the handler fails
with the no-op error (whose exit status is non-zero) and issues zero remote
update calls. -/
theorem videos_update_noop (videoId : String) (sn st : List (String × FVal))
    (rest : List (List (String × FVal) × List (String × FVal))) :
    cmd_videos_update ⟨none, none, none, none, none, none⟩ videoId
        ((sn, st) :: rest)
      = { updates := [], err := some UpdErr.noOp } ∧
    updErrExitCode UpdErr.noOp ≠ 0 :=
  ⟨rfl, by decide⟩

/- ───────────────────────── Claim C5 ── -/

/-- C5: with only `--title` supplied, exactly one update call is issued and
its body is the freshly fetched state with only the title overlaid: the
outgoing snippet is the fetched snippet with key `title` replaced, every
other snippet key keeps its fetched value verbatim, and the fetched status
is passed through unchanged. -/
theorem videos_update_title_only (t videoId : String)
    (sn st : List (String × FVal))
    (rest : List (List (String × FVal) × List (String × FVal))) :
    (cmd_videos_update ⟨some t, none, none, none, none, none⟩ videoId
        ((sn, st) :: rest)).updates
      = [(videoId, dictInsert sn "title" (FVal.s t), st)] ∧
    (cmd_videos_update ⟨some t, none, none, none, none, none⟩ videoId
        ((sn, st) :: rest)).err = none ∧
    (cmd_videos_update ⟨some t, none, none, none, none, none⟩ videoId
        ((sn, st) :: rest)).updates.length = 1 ∧
    dget (dictInsert sn "title" (FVal.s t)) "title" = some (FVal.s t) ∧
    (∀ k2, k2 ≠ "title" →
      dget (dictInsert sn "title" (FVal.s t)) k2 = dget sn k2) := by
  refine ⟨rfl, rfl, rfl, ?_, ?_⟩
  · rw [dget_dictInsert]
    simp
  · intro k2 hk2
    rw [dget_dictInsert, if_neg (fun hh => hk2 hh.symm)]

/-- C5 witness: concrete fetched snippet and status with extra fields. -/
theorem videos_update_title_only_witness :
    (cmd_videos_update ⟨some "New", none, none, none, none, none⟩ "vid"
        [([("title", FVal.s "Old"), ("description", FVal.s "D")],
          [("privacyStatus", FVal.s "private")])]).updates
      = [("vid",
          [("title", FVal.s "New"), ("description", FVal.s "D")],
          [("privacyStatus", FVal.s "private")])] ∧
    dget (dictInsert [("title", FVal.s "Old"), ("description", FVal.s "D")]
        "title" (FVal.s "New")) "description" = some (FVal.s "D") := by
  constructor
  · have h := (videos_update_title_only "New" "vid"
      [("title", FVal.s "Old"), ("description", FVal.s "D")]
      [("privacyStatus", FVal.s "private")] []).1
    rw [h]
    rfl
  · exact (videos_update_title_only "New" "vid"
      [("title", FVal.s "Old"), ("description", FVal.s "D")]
      [("privacyStatus", FVal.s "private")] []).2.2.2.2 "description"
      (by decide)

/- ───────────────────────── Claim C6 ── -/

theorem dget_ite (c : Prop) [Decidable c] (m1 m2 : List (String × α))
    (key : String) :
    dget (if c then m1 else m2) key
      = if c then dget m1 key else dget m2 key := by
  split_ifs <;> rfl

/-- C6: in CSV bulk-update, a present-but-empty cell in an optional column
(`title`, `tags`, `category_id`, `status`) leaves the corresponding remote
field unchanged in the outgoing update, whereas the mere presence of the
`description` column — even with an empty cell — overwrites the remote
description with the raw cell value. -/
theorem bulk_update_row_semantics (row : List (String × String))
    (sn st : List (String × FVal)) :
    (dget row "title" = some "" →
      dget (bulkApplyRow row sn st).1 "title" = dget sn "title") ∧
    (dget row "tags" = some "" →
      dget (bulkApplyRow row sn st).1 "tags" = dget sn "tags") ∧
    (dget row "category_id" = some "" →
      dget (bulkApplyRow row sn st).1 "categoryId" = dget sn "categoryId") ∧
    (dget row "status" = some "" →
      dget (bulkApplyRow row sn st).2.1 "privacyStatus"
        = dget st "privacyStatus") ∧
    (∀ dv, dget row "description" = some dv →
      dget (bulkApplyRow row sn st).1 "description" = some (FVal.s dv)) := by
  refine ⟨?_, ?_, ?_, ?_, ?_⟩
  · intro h
    have h0 : rowGet row "title" = "" := by simp [rowGet, h]
    simp [bulkApplyRow, h0, dget_ite, dget_dictInsert,
      (show (pyStrip "").isEmpty = true from rfl)]
  · intro h
    have h0 : rowGet row "tags" = "" := by simp [rowGet, h]
    simp [bulkApplyRow, h0, dget_ite, dget_dictInsert,
      (show (pyStrip "").isEmpty = true from rfl)]
  · intro h
    have h0 : rowGet row "category_id" = "" := by simp [rowGet, h]
    simp [bulkApplyRow, h0, dget_ite, dget_dictInsert,
      (show (pyStrip "").isEmpty = true from rfl)]
  · intro h
    have h0 : rowGet row "status" = "" := by simp [rowGet, h]
    simp [bulkApplyRow, h0, dget_ite, dget_dictInsert,
      (show (pyStrip "").isEmpty = true from rfl)]
  · intro dv h
    have h0 : rowGet row "description" = dv := by simp [rowGet, h]
    have hH : rowHas row "description" = true := by simp [rowHas, h]
    simp [bulkApplyRow, h0, hH, dget_ite, dget_dictInsert]

/-- C6 witness: a row with all optional cells present and empty. -/
theorem bulk_update_row_semantics_witness :
    dget (bulkApplyRow
        [("id", "x"), ("title", ""), ("description", ""), ("tags", ""),
          ("category_id", ""), ("status", "")]
        [("title", FVal.s "Old")] [("privacyStatus", FVal.s "P")]).1 "title"
      = dget [("title", FVal.s "Old")] "title" ∧
    dget (bulkApplyRow
        [("id", "x"), ("title", ""), ("description", ""), ("tags", ""),
          ("category_id", ""), ("status", "")]
        [("title", FVal.s "Old")] [("privacyStatus", FVal.s "P")]).1
        "description"
      = some (FVal.s "") :=
  ⟨(bulk_update_row_semantics _ _ _).1 rfl,
    (bulk_update_row_semantics _ _ _).2.2.2.2 "" rfl⟩

/- ───────────────────────── JSON string lemmas ── -/

theorem skipWs_cons_not (c : Char) (l : List Char) (h : isWs c = false) :
    skipWs (c :: l) = c :: l := by
  simp [skipWs, h]

theorem skipWs_ws_append (ws : List Char) (l : List Char)
    (h : ∀ c ∈ ws, isWs c = true) :
    skipWs (ws ++ l) = skipWs l := by
  induction ws with
  | nil => rfl
  | cons c cs ih =>
    have hc : isWs c = true := h c (List.mem_cons_self c cs)
    simp only [List.cons_append, skipWs, hc, if_true]
    exact ih (fun x hx => h x (List.mem_cons_of_mem c hx))

theorem ind_all_ws (d : Nat) : ∀ c ∈ ind d, isWs c = true := by
  intro c hc
  rw [ind] at hc
  rw [List.eq_of_mem_replicate hc]
  rfl

theorem psb_close (l : List Char) : parseStrBody (dquote :: l) = some ([], l) := by
  rw [parseStrBody.eq_def]; rfl

theorem psb_q (l : List Char) :
    parseStrBody (bslash :: dquote :: l)
      = (parseStrBody l).map (fun pr => (dquote :: pr.1, pr.2)) := by
  rw [parseStrBody.eq_def]; rfl

theorem psb_bs (l : List Char) :
    parseStrBody (bslash :: bslash :: l)
      = (parseStrBody l).map (fun pr => (bslash :: pr.1, pr.2)) := by
  rw [parseStrBody.eq_def]; rfl

theorem psb_n (l : List Char) :
    parseStrBody (bslash :: 'n' :: l)
      = (parseStrBody l).map (fun pr => ('\n' :: pr.1, pr.2)) := by
  rw [parseStrBody.eq_def]; rfl

theorem psb_t (l : List Char) :
    parseStrBody (bslash :: 't' :: l)
      = (parseStrBody l).map (fun pr => ('\t' :: pr.1, pr.2)) := by
  rw [parseStrBody.eq_def]; rfl

theorem psb_r (l : List Char) :
    parseStrBody (bslash :: 'r' :: l)
      = (parseStrBody l).map (fun pr => ('\r' :: pr.1, pr.2)) := by
  rw [parseStrBody.eq_def]; rfl

theorem psb_b (l : List Char) :
    parseStrBody (bslash :: 'b' :: l)
      = (parseStrBody l).map (fun pr => (Char.ofNat 8 :: pr.1, pr.2)) := by
  rw [parseStrBody.eq_def]; rfl

theorem psb_f (l : List Char) :
    parseStrBody (bslash :: 'f' :: l)
      = (parseStrBody l).map (fun pr => (Char.ofNat 12 :: pr.1, pr.2)) := by
  rw [parseStrBody.eq_def]; rfl

theorem psb_plain (c : Char) (l : List Char) (h1 : ¬ c = dquote)
    (h2 : ¬ c = bslash) (h3 : ¬ c.toNat < 32) :
    parseStrBody (c :: l)
      = (parseStrBody l).map (fun pr => (c :: pr.1, pr.2)) := by
  rw [parseStrBody.eq_def]
  simp only [if_neg h1, if_neg h2, if_neg h3]

theorem hexVal_hexChar : ∀ a, a < 16 → hexVal (hexChar a) = some a := by decide

theorem psb_u (t : Nat) (ht : t < 32) (l : List Char) :
    parseStrBody (bslash :: 'u' :: '0' :: '0'
        :: hexChar (t / 16) :: hexChar (t % 16) :: l)
      = (parseStrBody l).map (fun pr => (Char.ofNat t :: pr.1, pr.2)) := by
  have hA := hexVal_hexChar (t / 16) (by omega)
  have hB := hexVal_hexChar (t % 16) (by omega)
  rw [parseStrBody.eq_def]
  simp only [hA, hB, (show hexVal '0' = some 0 from rfl)]
  have harith : ((0 * 16 + 0) * 16 + t / 16) * 16 + t % 16 = t := by omega
  simp only [harith]
  rw [if_pos (by omega : t < 55296)]
  rfl

theorem parseStrBody_round (s : List Char) (rest : List Char) :
    parseStrBody (s.flatMap escChar ++ dquote :: rest) = some (s, rest) := by
  induction s with
  | nil => simpa using psb_close rest
  | cons c s2 ih =>
    simp only [List.flatMap_cons, List.append_assoc]
    by_cases h1 : c = dquote
    · subst h1
      rw [(show escChar dquote = [bslash, dquote] from rfl)]
      simp only [List.cons_append, List.nil_append]
      rw [psb_q, ih]
      rfl
    by_cases h2 : c = bslash
    · subst h2
      rw [(show escChar bslash = [bslash, bslash] from rfl)]
      simp only [List.cons_append, List.nil_append]
      rw [psb_bs, ih]
      rfl
    by_cases h3 : c = '\n'
    · subst h3
      rw [(show escChar '\n' = [bslash, 'n'] from rfl)]
      simp only [List.cons_append, List.nil_append]
      rw [psb_n, ih]
      rfl
    by_cases h4 : c = '\t'
    · subst h4
      rw [(show escChar '\t' = [bslash, 't'] from rfl)]
      simp only [List.cons_append, List.nil_append]
      rw [psb_t, ih]
      rfl
    by_cases h5 : c = '\r'
    · subst h5
      rw [(show escChar '\r' = [bslash, 'r'] from rfl)]
      simp only [List.cons_append, List.nil_append]
      rw [psb_r, ih]
      rfl
    by_cases h6 : c.toNat = 8
    · rw [(show escChar c = [bslash, 'b'] from by
        simp only [escChar, if_neg h1, if_neg h2, if_neg h3, if_neg h4,
          if_neg h5, if_pos h6])]
      simp only [List.cons_append, List.nil_append]
      rw [psb_b, ih]
      have hc8 : Char.ofNat 8 = c := by rw [← h6, Char.ofNat_toNat]
      rw [hc8]
      rfl
    by_cases h7 : c.toNat = 12
    · rw [(show escChar c = [bslash, 'f'] from by
        simp only [escChar, if_neg h1, if_neg h2, if_neg h3, if_neg h4,
          if_neg h5, if_neg h6, if_pos h7])]
      simp only [List.cons_append, List.nil_append]
      rw [psb_f, ih]
      have hc12 : Char.ofNat 12 = c := by rw [← h7, Char.ofNat_toNat]
      rw [hc12]
      rfl
    by_cases h8 : c.toNat < 32
    · rw [(show escChar c
          = [bslash, 'u', '0', '0', hexChar (c.toNat / 16), hexChar (c.toNat % 16)]
        from by
        simp only [escChar, if_neg h1, if_neg h2, if_neg h3, if_neg h4,
          if_neg h5, if_neg h6, if_neg h7, if_pos h8])]
      simp only [List.cons_append, List.nil_append]
      rw [psb_u c.toNat h8, ih, Char.ofNat_toNat]
      rfl
    · rw [(show escChar c = [c] from by
        simp only [escChar, if_neg h1, if_neg h2, if_neg h3, if_neg h4,
          if_neg h5, if_neg h6, if_neg h7, if_neg h8])]
      simp only [List.cons_append, List.nil_append]
      rw [psb_plain c _ h1 h2 h8, ih]
      rfl

/- ───────────────────────── JSON number lemmas ── -/

theorem char_toNat_ofNat (n : Nat) (h : n < 55296) : (Char.ofNat n).toNat = n := by
  have hv : n.isValidChar := Or.inl h
  simp only [Char.ofNat, dif_pos hv]
  simp [Char.ofNatAux, Char.toNat, UInt32.toNat, BitVec.toNat_ofNatLt]

theorem digitChar_toNat (d : Nat) (h : d < 10) : (digitChar d).toNat = 48 + d := by
  unfold digitChar
  exact char_toNat_ofNat _ (by omega)

theorem digitChar_ne_minus (d : Nat) (h : d < 10) : ¬ digitChar d = '-' := by
  intro he
  have h2 := congrArg Char.toNat he
  rw [digitChar_toNat d h] at h2
  have h3 : ('-' : Char).toNat = 45 := rfl
  omega

theorem digitChar_ne_dquote (d : Nat) (h : d < 10) : ¬ digitChar d = dquote := by
  intro he
  have h2 := congrArg Char.toNat he
  rw [digitChar_toNat d h] at h2
  have h3 : dquote.toNat = 34 := rfl
  omega

theorem parseDigits_stop (l : List Char) (h : headDigit l = false) :
    parseDigits l = ([], l) := by
  cases l with
  | nil => rfl
  | cons c cs =>
    have hc : ¬ (48 ≤ c.toNat ∧ c.toNat ≤ 57) := by
      simpa [headDigit] using h
    rw [parseDigits.eq_def]
    simp only [if_neg hc]

theorem parseDigits_digits (ds : List Nat) (hds : ∀ d ∈ ds, d < 10)
    (rest : List Char) (hrest : headDigit rest = false) :
    parseDigits (ds.map digitChar ++ rest) = (ds, rest) := by
  induction ds with
  | nil => simpa using parseDigits_stop rest hrest
  | cons d ds2 ih =>
    have hd : d < 10 := hds d (List.mem_cons_self d ds2)
    have htn : (digitChar d).toNat = 48 + d := digitChar_toNat d hd
    simp only [List.map_cons, List.cons_append]
    rw [parseDigits.eq_def]
    simp only [htn]
    rw [if_pos (by omega)]
    rw [ih (fun x hx => hds x (List.mem_cons_of_mem d hx))]
    simp

theorem foldl_rev_digits (L : List Nat) :
    ∀ a : Nat, (L.reverse).foldl (fun x d => x * 10 + d) a
      = a * 10 ^ L.length + Nat.ofDigits 10 L := by
  induction L with
  | nil => intro a; simp
  | cons d L2 ih =>
    intro a
    simp only [List.reverse_cons, List.foldl_append, ih, List.foldl_cons,
      List.foldl_nil, Nat.ofDigits_cons, List.length_cons]
    ring

theorem digitsVal_digits (m : Nat) :
    digitsVal ((Nat.digits 10 m).reverse) = m := by
  unfold digitsVal
  rw [foldl_rev_digits]
  simp [Nat.ofDigits_digits]

theorem parseNum_natChars (m : Nat) (rest : List Char)
    (hrest : headDigit rest = false) :
    parseNum (natChars m ++ rest) = some ((m : Int), rest) := by
  by_cases hm : m = 0
  · subst hm
    have hpd : parseDigits (digitChar 0 :: rest) = ([0], rest) := by
      simpa using parseDigits_digits [0] (by simp) rest hrest
    rw [(show natChars 0 = [digitChar 0] from rfl)]
    simp only [List.cons_append, List.nil_append]
    simp only [parseNum.eq_def]
    rw [if_neg (digitChar_ne_minus 0 (by norm_num))]
    simp only [hpd]
    rfl
  · have hds : natChars m = ((Nat.digits 10 m).reverse).map digitChar := by
      simp [natChars, hm]
    cases hrev : (Nat.digits 10 m).reverse with
    | nil =>
      exfalso
      have h2 : Nat.digits 10 m = [] := by
        simpa using congrArg List.reverse hrev
      exact (Nat.digits_ne_nil_iff_ne_zero.mpr hm) h2
    | cons d tail =>
      have hmemd : ∀ x ∈ d :: tail, x < 10 := by
        intro x hx
        have hdm : x ∈ (Nat.digits 10 m).reverse := by
          rw [hrev]; exact hx
        exact Nat.digits_lt_base (by norm_num) (List.mem_reverse.mp hdm)
      have hd10 : d < 10 := hmemd d (List.mem_cons_self d tail)
      rw [hds, hrev]
      simp only [List.map_cons, List.cons_append]
      simp only [parseNum.eq_def]
      rw [if_neg (digitChar_ne_minus d hd10)]
      have hpd : parseDigits (digitChar d :: (tail.map digitChar ++ rest))
          = (d :: tail, rest) := by
        simpa using parseDigits_digits (d :: tail) hmemd rest hrest
      simp only [hpd]
      have hval : digitsVal (d :: tail) = m := by
        rw [← hrev]
        exact digitsVal_digits m
      rw [hval]

theorem parseNum_encodeInt (n : Int) (rest : List Char)
    (hrest : headDigit rest = false) :
    parseNum (encodeInt n ++ rest) = some (n, rest) := by
  by_cases hneg : n < 0
  · rw [(show encodeInt n = '-' :: natChars n.natAbs from by
      simp [encodeInt, hneg])]
    simp only [List.cons_append]
    simp only [parseNum.eq_def]
    simp only [if_true]
    obtain ⟨ds, hpd, hne, hval⟩ : ∃ ds,
        parseDigits (natChars n.natAbs ++ rest) = (ds, rest) ∧ ds ≠ [] ∧
          digitsVal ds = n.natAbs := by
      by_cases hm : n.natAbs = 0
      · exact absurd (Int.natAbs_eq_zero.mp hm) (by omega)
      · refine ⟨(Nat.digits 10 n.natAbs).reverse, ?_, ?_, digitsVal_digits _⟩
        · rw [(show natChars n.natAbs
              = ((Nat.digits 10 n.natAbs).reverse).map digitChar from by
            simp [natChars, hm])]
          refine parseDigits_digits _ ?_ rest hrest
          intro x hx
          exact Nat.digits_lt_base (by norm_num) (List.mem_reverse.mp hx)
        · simp [Nat.digits_ne_nil_iff_ne_zero.mpr hm]
    rw [hpd]
    cases ds with
    | nil => exact absurd rfl hne
    | cons d0 ds2 =>
      have hfin : -(digitsVal (d0 :: ds2) : Int) = n := by
        rw [hval]
        omega
      rw [← hfin]
  · have hE : encodeInt n = natChars n.toNat := by simp [encodeInt, hneg]
    rw [hE, parseNum_natChars n.toNat rest hrest]
    have : ((n.toNat : Nat) : Int) = n := Int.toNat_of_nonneg (by omega)
    rw [this]

/- ───────────────────────── JSON scalar lemma ── -/

theorem encodeInt_head (n : Int) :
    ∃ c cs, encodeInt n = c :: cs ∧ ¬ c = dquote ∧ isWs c = false := by
  by_cases hneg : n < 0
  · exact ⟨'-', natChars n.natAbs, by simp [encodeInt, hneg], by decide,
      by decide⟩
  · have hE : encodeInt n = natChars n.toNat := by simp [encodeInt, hneg]
    by_cases hm : n.toNat = 0
    · refine ⟨'0', [], ?_, by decide, by decide⟩
      rw [hE, hm]
      rfl
    · have hds : natChars n.toNat
          = ((Nat.digits 10 n.toNat).reverse).map digitChar := by
        simp [natChars, hm]
      cases hrev : (Nat.digits 10 n.toNat).reverse with
      | nil =>
        exfalso
        have h2 : Nat.digits 10 n.toNat = [] := by
          simpa using congrArg List.reverse hrev
        exact (Nat.digits_ne_nil_iff_ne_zero.mpr hm) h2
      | cons d tail =>
        have hdm : d ∈ (Nat.digits 10 n.toNat).reverse := by
          rw [hrev]; exact List.mem_cons_self d tail
        have hd10 : d < 10 :=
          Nat.digits_lt_base (by norm_num) (List.mem_reverse.mp hdm)
        refine ⟨digitChar d, tail.map digitChar, ?_,
          digitChar_ne_dquote d hd10, ?_⟩
        · rw [hE, hds, hrev]
          simp
        · have htn := digitChar_toNat d hd10
          simp only [isWs, Bool.or_eq_false_iff, decide_eq_false_iff_not]
          refine ⟨⟨⟨?_, ?_⟩, ?_⟩, ?_⟩ <;>
            (intro hh
             have h2 := congrArg Char.toNat hh
             rw [htn] at h2
             simp only [(show (' ' : Char).toNat = 32 from rfl),
               (show ('\n' : Char).toNat = 10 from rfl),
               (show ('\t' : Char).toNat = 9 from rfl),
               (show ('\r' : Char).toNat = 13 from rfl)] at h2
             omega)

theorem parseJVal_encode (v : JVal) (T : List Char) (hT : headDigit T = false) :
    parseJVal (encodeJVal v ++ T) = some (v, T) := by
  cases v with
  | str s =>
    obtain ⟨sd⟩ := s
    simp only [encodeJVal, encodeString]
    simp only [List.cons_append, List.append_assoc, List.singleton_append,
      List.nil_append]
    simp only [parseJVal.eq_def]
    simp only [if_true]
    rw [parseStrBody_round]
    rfl
  | num n =>
    obtain ⟨c, cs, hE, hne, _⟩ := encodeInt_head n
    simp only [encodeJVal]
    rw [hE]
    simp only [List.cons_append]
    simp only [parseJVal.eq_def]
    rw [if_neg hne]
    rw [← List.cons_append, ← hE]
    rw [parseNum_encodeInt n T hT]
    rfl

/- ───────────────────────── JSON object lemmas ── -/

theorem string_mk_data (s : String) : String.mk s.data = s := rfl

theorem headDigit_ws_close (ws : List Char) (c : Char) (rest : List Char)
    (hws : ∀ x ∈ ws, isWs x = true) (hc : c.toNat < 48 ∨ 57 < c.toNat) :
    headDigit (ws ++ c :: rest) = false := by
  cases ws with
  | nil =>
    simp only [List.nil_append, headDigit, decide_eq_false_iff_not]
    omega
  | cons w ws2 =>
    have hw := hws w (List.mem_cons_self w ws2)
    simp only [isWs, Bool.or_eq_true, decide_eq_true_eq] at hw
    simp only [List.cons_append, headDigit, decide_eq_false_iff_not]
    rcases hw with ((h | h) | h) | h <;> subst h <;> decide

theorem encodeJVal_head (v : JVal) :
    ∃ c cs, encodeJVal v = c :: cs ∧ isWs c = false := by
  cases v with
  | str s => exact ⟨dquote, _, rfl, by decide⟩
  | num n =>
    obtain ⟨c, cs, hE, _, hws⟩ := encodeInt_head n
    exact ⟨c, cs, by simp [encodeJVal, hE], hws⟩

theorem skipWs_encodeJVal (v : JVal) (T : List Char) :
    skipWs (encodeJVal v ++ T) = encodeJVal v ++ T := by
  obtain ⟨c, cs, hE, hws⟩ := encodeJVal_head v
  rw [hE]
  simp only [List.cons_append]
  exact skipWs_cons_not c _ hws

theorem dictInsert_fresh (m : List (String × α)) (k : String) (v : α)
    (h : ¬ k ∈ m.map Prod.fst) : dictInsert m k v = m ++ [(k, v)] := by
  induction m with
  | nil => rfl
  | cons p rest ih =>
    obtain ⟨k1, v1⟩ := p
    have h1 : ¬ k1 = k := fun hh => h (by simp [hh])
    simp only [dictInsert, if_neg h1, List.cons_append]
    rw [ih (fun hh => h (by simp [hh]))]

theorem parsePairsGo_keyval (fuel : Nat) (acc : Row) (k : String) (v : JVal)
    (T : List Char) (hT : headDigit T = false) :
    parsePairsGo (fuel + 1) acc (encodePair (k, v) ++ T)
      = (match skipWs T with
          | [] => none
          | c3 :: r6 =>
            if c3 = ',' then parsePairsGo fuel (dictInsert acc k v) (skipWs r6)
            else if c3 = rcurl then some (dictInsert acc k v, r6)
            else none) := by
  have hL : encodePair (k, v) ++ T
      = dquote :: (k.data.flatMap escChar
          ++ dquote :: (':' :: ' ' :: (encodeJVal v ++ T))) := by
    simp [encodePair, encodeString, List.append_assoc]
  rw [hL]
  rw [parsePairsGo.eq_def]
  simp only [parseStrBody_round,
    (show skipWs (':' :: ' ' :: (encodeJVal v ++ T))
      = ':' :: ' ' :: (encodeJVal v ++ T) from rfl),
    (show ∀ X : List Char, skipWs (' ' :: X) = skipWs X from fun X => rfl),
    skipWs_encodeJVal, parseJVal_encode v T hT, string_mk_data,
    eq_self_iff_true, if_true]

theorem skipWs_encodePair (p : String × JVal) (X : List Char) :
    skipWs (encodePair p ++ X) = encodePair p ++ X := by
  obtain ⟨k, v⟩ := p
  have hL : encodePair (k, v) ++ X
      = dquote :: (k.data.flatMap escChar
          ++ dquote :: (':' :: ' ' :: (encodeJVal v ++ X))) := by
    simp [encodePair, encodeString, List.append_assoc]
  rw [hL, skipWs_cons_not dquote _ (by decide), ← hL]

theorem nodup_append_head_fresh {l1 : List String} {k : String}
    {l2 : List String} (h : (l1 ++ k :: l2).Nodup) : ¬ k ∈ l1 := by
  intro hk
  rw [List.nodup_append] at h
  exact absurd (List.mem_cons_self k l2) (h.2.2 hk)

theorem keys_fresh_of_nodup (acc : Row) (k : String) (v : JVal) (Z : Row)
    (h : ((acc ++ (k, v) :: Z).map Prod.fst).Nodup) :
    ¬ k ∈ acc.map Prod.fst := by
  have h2 : (acc.map Prod.fst ++ k :: Z.map Prod.fst).Nodup := by
    simpa [List.map_append] using h
  exact nodup_append_head_fresh h2

theorem parsePairsGo_round (ps : Row) :
    ∀ (p : String × JVal) (acc : Row) (fuel : Nat) (d : Nat)
      (ws rest : List Char),
      ps.length < fuel →
      (∀ c ∈ ws, isWs c = true) →
      (((acc ++ p :: ps).map Prod.fst).Nodup) →
      parsePairsGo fuel acc
          (encodePair p ++ (encodePairsTail d ps ++ (ws ++ rcurl :: rest)))
        = some (acc ++ p :: ps, rest) := by
  induction ps with
  | nil =>
    intro p acc fuel d ws rest hf hws hnd
    obtain ⟨f, rfl⟩ : ∃ f, fuel = f + 1 := ⟨fuel - 1, by omega⟩
    obtain ⟨k, v⟩ := p
    have hT : headDigit (ws ++ rcurl :: rest) = false :=
      headDigit_ws_close ws rcurl rest hws (by decide)
    rw [(show encodePairsTail d ([] : Row) = [] from rfl)]
    simp only [List.nil_append]
    rw [parsePairsGo_keyval f acc k v (ws ++ rcurl :: rest) hT]
    rw [skipWs_ws_append ws _ hws]
    rw [skipWs_cons_not rcurl rest (by decide)]
    rw [dictInsert_fresh acc k v (keys_fresh_of_nodup acc k v [] hnd)]
    rfl
  | cons q ps2 ih =>
    intro p acc fuel d ws rest hf hws hnd
    obtain ⟨f, rfl⟩ : ∃ f, fuel = f + 1 := ⟨fuel - 1, by omega⟩
    obtain ⟨k, v⟩ := p
    have hTail : encodePairsTail d (q :: ps2) ++ (ws ++ rcurl :: rest)
        = ',' :: ('\n' :: (ind d
            ++ (encodePair q ++ (encodePairsTail d ps2
              ++ (ws ++ rcurl :: rest))))) := by
      simp [encodePairsTail, List.append_assoc]
    have hT : headDigit (encodePairsTail d (q :: ps2)
        ++ (ws ++ rcurl :: rest)) = false := by
      rw [hTail]
      rfl
    rw [parsePairsGo_keyval f acc k v _ hT]
    rw [hTail]
    rw [skipWs_cons_not ',' _ (by decide)]
    rw [(show ∀ (c3 : Char) (r6 : List Char) (acc2 : Row),
        (match c3 :: r6 with
          | [] => (none : Option (Row × List Char))
          | c4 :: r7 =>
            if c4 = ',' then parsePairsGo f acc2 (skipWs r7)
            else if c4 = rcurl then some (acc2, r7) else none)
          = (if c3 = ',' then parsePairsGo f acc2 (skipWs r6)
             else if c3 = rcurl then some (acc2, r6) else none)
      from fun _ _ _ => rfl)]
    rw [if_pos (rfl : (',' : Char) = ',')]
    rw [(show ∀ X : List Char, skipWs ('\n' :: X) = skipWs X from
      fun X => rfl)]
    rw [skipWs_ws_append (ind d) _ (ind_all_ws d)]
    rw [skipWs_encodePair]
    rw [dictInsert_fresh acc k v (keys_fresh_of_nodup acc k v (q :: ps2) hnd)]
    have hnd2 : (((acc ++ [(k, v)]) ++ q :: ps2).map Prod.fst).Nodup := by
      rw [← List.append_cons]
      exact hnd
    rw [ih q (acc ++ [(k, v)]) f d ws rest (by simp at hf ⊢; omega) hws hnd2]
    rw [← List.append_cons]

theorem parseObj_round (fuel : Nat) (r : Row) (d : Nat) (rest : List Char)
    (hf : r.length ≤ fuel) (hnd : (r.map Prod.fst).Nodup) :
    parseObj fuel (encodeObj d r ++ rest) = some (r, rest) := by
  cases r with
  | nil =>
    rw [(show encodeObj d ([] : Row) = [lcurl, rcurl] from rfl)]
    rfl
  | cons p ps =>
    have hPair : encodePair p ++ (encodePairsTail (d + 1) ps
          ++ (('\n' :: ind d) ++ rcurl :: rest))
        = dquote :: (p.1.data.flatMap escChar
            ++ dquote :: (':' :: ' ' :: (encodeJVal p.2
              ++ (encodePairsTail (d + 1) ps
                ++ (('\n' :: ind d) ++ rcurl :: rest))))) := by
      simp [encodePair, encodeString, List.append_assoc]
    have hObj : encodeObj d (p :: ps) ++ rest
        = lcurl :: ('\n' :: (ind (d + 1)
            ++ (encodePair p ++ (encodePairsTail (d + 1) ps
              ++ (('\n' :: ind d) ++ rcurl :: rest))))) := by
      simp [encodeObj, List.append_assoc]
    have hstep1 : ∀ X : List Char,
        parseObj fuel (lcurl :: X)
          = (match skipWs X with
            | [] => none
            | c2 :: r2 =>
              if c2 = rcurl then some ([], r2)
              else parsePairsGo fuel [] (c2 :: r2)) := by
      intro X
      rw [parseObj.eq_def]
      rfl
    rw [hObj, hstep1]
    rw [(show ∀ X : List Char, skipWs ('\n' :: X) = skipWs X from
      fun X => rfl)]
    rw [skipWs_ws_append (ind (d + 1)) _ (ind_all_ws _)]
    rw [skipWs_encodePair]
    rw [hPair]
    rw [(show ∀ (c2 : Char) (Y : List Char),
        (match c2 :: Y with
          | [] => (none : Option (Row × List Char))
          | c3 :: r2 =>
            if c3 = rcurl then some ([], r2)
            else parsePairsGo fuel [] (c3 :: r2))
          = (if c2 = rcurl then some ([], Y)
             else parsePairsGo fuel [] (c2 :: Y)) from fun _ _ => rfl)]
    rw [if_neg (show ¬ dquote = rcurl from by decide)]
    rw [← hPair]
    rw [parsePairsGo_round ps p [] fuel (d + 1) ('\n' :: ind d) rest
      (by simp at hf ⊢; omega)
      (by
        intro c hc
        rcases List.mem_cons.mp hc with h | h
        · subst h; rfl
        · exact ind_all_ws d c h)
      (by simpa using hnd)]
    simp

theorem rowsBound_nil : rowsBound [] = 1 := rfl

theorem rowsBound_cons (r : Row) (rs : List Row) :
    rowsBound (r :: rs) = r.length + 1 + rowsBound rs := rfl

theorem rowsBound_pos (rs : List Row) : 1 ≤ rowsBound rs := by
  induction rs with
  | nil => simp [rowsBound_nil]
  | cons r rs2 ih => rw [rowsBound_cons]; omega

theorem skipWs_encodeObj (d : Nat) (r : Row) (X : List Char) :
    skipWs (encodeObj d r ++ X) = encodeObj d r ++ X := by
  cases r with
  | nil =>
    rw [(show encodeObj d ([] : Row) = [lcurl, rcurl] from rfl)]
    simp only [List.cons_append]
    exact skipWs_cons_not lcurl _ (by decide)
  | cons p ps =>
    have hObj : encodeObj d (p :: ps) ++ X
        = lcurl :: ('\n' :: (ind (d + 1)
            ++ (encodePair p ++ (encodePairsTail (d + 1) ps
              ++ (('\n' :: ind d) ++ rcurl :: X))))) := by
      simp [encodeObj, List.append_assoc]
    rw [hObj, skipWs_cons_not lcurl _ (by decide), ← hObj]

theorem parseRowsGo_succ (fuel : Nat) (acc : List Row) (l : List Char) :
    parseRowsGo (fuel + 1) acc l
      = (match parseObj (fuel + 1) l with
        | none => none
        | some (row, r1) =>
          match skipWs r1 with
          | [] => none
          | c :: r2 =>
            if c = ',' then parseRowsGo fuel (acc ++ [row]) (skipWs r2)
            else if c = ']' then some (acc ++ [row], r2)
            else none) := by
  rw [parseRowsGo.eq_def]

theorem parseRowsGo_round (rs : List Row) :
    ∀ (r : Row) (acc : List Row) (fuel : Nat) (ws rest : List Char),
      rowsBound (r :: rs) ≤ fuel + 1 →
      (∀ c ∈ ws, isWs c = true) →
      (∀ r2 ∈ r :: rs, (r2.map Prod.fst).Nodup) →
      parseRowsGo (fuel + 1) acc
          (encodeObj 1 r ++ (encodeRowsTail rs ++ (ws ++ ']' :: rest)))
        = some (acc ++ r :: rs, rest) := by
  induction rs with
  | nil =>
    intro r acc fuel ws rest hf hws hnd
    have hOlen : r.length ≤ fuel + 1 := by
      have := rowsBound_pos ([] : List Row)
      rw [rowsBound_cons] at hf
      omega
    have hstep : ∀ T : List Char,
        parseRowsGo (fuel + 1) acc (encodeObj 1 r ++ T)
          = (match skipWs T with
            | [] => none
            | c :: rr =>
              if c = ',' then parseRowsGo fuel (acc ++ [r]) (skipWs rr)
              else if c = ']' then some (acc ++ [r], rr)
              else none) := by
      intro T
      rw [parseRowsGo_succ]
      rw [parseObj_round (fuel + 1) r 1 T hOlen
        (hnd r (List.mem_cons_self r []))]
    rw [(show encodeRowsTail [] = [] from rfl)]
    simp only [List.nil_append]
    rw [hstep]
    rw [skipWs_ws_append ws _ hws]
    rw [skipWs_cons_not ']' rest (by decide)]
    rfl
  | cons r2 rs2 ih =>
    intro r acc fuel ws rest hf hws hnd
    have hOlen : r.length ≤ fuel + 1 := by
      have := rowsBound_pos (r2 :: rs2)
      rw [rowsBound_cons] at hf
      omega
    have hstep : ∀ T : List Char,
        parseRowsGo (fuel + 1) acc (encodeObj 1 r ++ T)
          = (match skipWs T with
            | [] => none
            | c :: rr =>
              if c = ',' then parseRowsGo fuel (acc ++ [r]) (skipWs rr)
              else if c = ']' then some (acc ++ [r], rr)
              else none) := by
      intro T
      rw [parseRowsGo_succ]
      rw [parseObj_round (fuel + 1) r 1 T hOlen
        (hnd r (List.mem_cons_self r (r2 :: rs2)))]
    have hTail : encodeRowsTail (r2 :: rs2) ++ (ws ++ ']' :: rest)
        = ',' :: ('\n' :: (ind 1 ++ (encodeObj 1 r2
            ++ (encodeRowsTail rs2 ++ (ws ++ ']' :: rest))))) := by
      simp [encodeRowsTail, List.append_assoc]
    rw [hstep]
    rw [hTail]
    rw [skipWs_cons_not ',' _ (by decide)]
    rw [(show ∀ (c : Char) (rr : List Char),
        (match c :: rr with
          | [] => (none : Option (List Row × List Char))
          | c2 :: rr2 =>
            if c2 = ',' then parseRowsGo fuel (acc ++ [r]) (skipWs rr2)
            else if c2 = ']' then some (acc ++ [r], rr2)
            else none)
          = (if c = ',' then parseRowsGo fuel (acc ++ [r]) (skipWs rr)
             else if c = ']' then some (acc ++ [r], rr)
             else none) from fun _ _ => rfl)]
    rw [if_pos (rfl : (',' : Char) = ',')]
    rw [(show ∀ X : List Char, skipWs ('\n' :: X) = skipWs X from
      fun X => rfl)]
    rw [skipWs_ws_append (ind 1) _ (ind_all_ws 1)]
    rw [skipWs_encodeObj]
    obtain ⟨f2, rfl⟩ : ∃ f2, fuel = f2 + 1 := by
      refine ⟨fuel - 1, ?_⟩
      rw [rowsBound_cons, rowsBound_cons] at hf
      have := rowsBound_pos rs2
      omega
    rw [ih r2 (acc ++ [r]) f2 ws rest
      (by rw [rowsBound_cons, rowsBound_cons] at hf; rw [rowsBound_cons]; omega)
      hws
      (fun r3 h3 => hnd r3 (List.mem_cons_of_mem r h3))]
    rw [← List.append_cons]

theorem encodePair_len (p : String × JVal) : 2 ≤ (encodePair p).length := by
  obtain ⟨k, v⟩ := p
  simp only [encodePair, encodeString, List.length_append, List.length_cons]
  omega

theorem encodePairsTail_len (d : Nat) (ps : Row) :
    ps.length ≤ (encodePairsTail d ps).length := by
  induction ps with
  | nil => simp [encodePairsTail]
  | cons p ps2 ih =>
    have h2 := encodePair_len p
    simp only [encodePairsTail, List.length_cons, List.length_append]
    omega

theorem encodeObj_len (d : Nat) (r : Row) :
    r.length + 2 ≤ (encodeObj d r).length := by
  cases r with
  | nil => simp [encodeObj]
  | cons p ps =>
    have h1 := encodePair_len p
    have h2 := encodePairsTail_len (d + 1) ps
    simp only [encodeObj, List.length_cons, List.length_append]
    omega

theorem encodeRowsTail_len (rs : List Row) :
    rowsBound rs ≤ (encodeRowsTail rs).length + 1 := by
  induction rs with
  | nil => simp [encodeRowsTail, rowsBound_nil]
  | cons r rs2 ih =>
    have h1 := encodeObj_len 1 r
    rw [rowsBound_cons]
    simp only [encodeRowsTail, List.length_cons, List.length_append]
    omega

theorem encodeRows_len (rows : List Row) :
    rowsBound rows ≤ (encodeRows rows).length + 1 := by
  cases rows with
  | nil => simp [encodeRows, rowsBound_nil]
  | cons r rs =>
    have h1 := encodeObj_len 1 r
    have h2 := encodeRowsTail_len rs
    rw [rowsBound_cons]
    simp only [encodeRows, List.length_cons, List.length_append]
    omega

theorem encodeObj_head (d : Nat) (r : Row) :
    ∃ cs, encodeObj d r = lcurl :: cs := by
  cases r with
  | nil => exact ⟨[rcurl], rfl⟩
  | cons p ps => exact ⟨_, rfl⟩

theorem parseRows_bracket (fuel : Nat) (X : List Char) :
    parseRows fuel ('[' :: X)
      = (match skipWs X with
        | [] => none
        | c2 :: rr =>
          if c2 = ']' then some ([], rr)
          else parseRowsGo fuel [] (c2 :: rr)) := by
  rw [parseRows.eq_def]
  rfl

theorem parseRows_encodeRows (r : Row) (rs : List Row) (fuel : Nat)
    (hfb : rowsBound (r :: rs) ≤ fuel + 1)
    (hnd : ∀ r2 ∈ r :: rs, (r2.map Prod.fst).Nodup) :
    parseRows (fuel + 1) (encodeRows (r :: rs)) = some (r :: rs, []) := by
  have hRows : encodeRows (r :: rs)
      = '[' :: ('\n' :: (ind 1 ++ (encodeObj 1 r
          ++ (encodeRowsTail rs ++ (['\n'] ++ ']' :: []))))) := by
    simp [encodeRows, List.append_assoc]
  rw [hRows]
  rw [parseRows_bracket]
  rw [(show ∀ X : List Char, skipWs ('\n' :: X) = skipWs X from
    fun X => rfl)]
  rw [skipWs_ws_append (ind 1) _ (ind_all_ws 1)]
  rw [skipWs_encodeObj]
  obtain ⟨cs0, hc⟩ := encodeObj_head 1 r
  rw [hc]
  simp only [List.cons_append]
  rw [if_neg (show ¬ lcurl = ']' from by decide)]
  rw [(show ('\n' : Char) :: ([] ++ [']']) = ['\n'] ++ ']' :: [] from rfl)]
  rw [← List.cons_append, ← hc]
  rw [parseRowsGo_round rs r [] fuel ['\n'] [] hfb
    (by
      intro c hc2
      rcases List.mem_cons.mp hc2 with h | h
      · subst h; rfl
      · simp at h)
    hnd]
  simp

/- ───────────────────────── Claim C9 ── -/

/-- C9: rendering a list of row records (ordered mappings, so each row's
field names are distinct) in JSON format with `json.dumps(rows, indent=2)`
and parsing the emitted text back as JSON yields a structure equal to the
original rows. -/
theorem loads_dumps_round (rows : List Row)
    (hnd : ∀ r ∈ rows, (r.map Prod.fst).Nodup) :
    loads (dumps rows) = some rows := by
  cases rows with
  | nil => rfl
  | cons r rs =>
    have hdata : (dumps (r :: rs)).data = encodeRows (r :: rs) := rfl
    have hlen : (dumps (r :: rs)).length = (encodeRows (r :: rs)).length := rfl
    have hskip : skipWs (encodeRows (r :: rs)) = encodeRows (r :: rs) := by
      have hRows : encodeRows (r :: rs)
          = '[' :: ('\n' :: (ind 1 ++ (encodeObj 1 r
              ++ (encodeRowsTail rs ++ ['\n', ']'])))) := by
        simp [encodeRows, List.append_assoc]
      rw [hRows, skipWs_cons_not '[' _ (by decide), ← hRows]
    have hfb : rowsBound (r :: rs) ≤ (encodeRows (r :: rs)).length + 1 :=
      encodeRows_len (r :: rs)
    have hparse := parseRows_encodeRows r rs (encodeRows (r :: rs)).length
      hfb hnd
    simp only [loads, hdata, hlen, hskip, hparse]
    rfl

/-- C9 witness: a concrete row list with a string field and a number field. -/
theorem loads_dumps_round_witness :
    (∀ r ∈ [[("id", JVal.str "a"), ("views", JVal.num 42)]],
      (r.map Prod.fst).Nodup) ∧
    loads (dumps [[("id", JVal.str "a"), ("views", JVal.num 42)]])
      = some [[("id", JVal.str "a"), ("views", JVal.num 42)]] :=
  ⟨by decide, loads_dumps_round _ (by decide)⟩
